import Mathlib

/-!
Verification of the search-and-evaluate core of the chessz repository
(`chessz3.py`, class `ChessAIEngine`): depth-limited minimax with
alpha-beta pruning over a Rules Adapter, a root move selector, and a
static evaluation function.  The Rules Adapter (the python-chess board)
is modelled abstractly by a `GameRules` structure; the engine's own
functions `minimax`, `get_best_move` and `evaluate` are translated
directly from the source.
-/

namespace Chessz

/-- Scores during search: integer evaluations extended with the two
sentinels `math.inf` and `-math.inf` of the source, rendered as the top
and bottom elements of `WithTop (WithBot ℤ)`. -/
abbrev Score : Type := WithTop (WithBot ℤ)

/-- Injection of an integer evaluation into `Score`. -/
def Score.ofInt (n : ℤ) : Score := ((n : WithBot ℤ) : Score)

theorem Score.ofInt_ne_bot (n : ℤ) : Score.ofInt n ≠ ⊥ := by
  simp [Score.ofInt]

theorem Score.ofInt_ne_top (n : ℤ) : Score.ofInt n ≠ ⊤ := by
  simp [Score.ofInt]

theorem Score.bot_lt_ofInt (n : ℤ) : (⊥ : Score) < Score.ofInt n :=
  (Score.ofInt_ne_bot n).bot_lt

theorem Score.ofInt_lt_top (n : ℤ) : Score.ofInt n < (⊤ : Score) :=
  WithTop.coe_lt_top _

/-- The Rules Adapter together with the evaluator, as consumed by the
search: legal move enumeration, move application, terminal-state
detection, and the static evaluation (`ChessAIEngine.evaluate` returns a
plain integer).  Applying a move is modelled functionally: `apply pos m`
is the position after `board.push(m)`; the paired `board.pop()` of the
source is treated explicitly by the stateful model further below. -/
structure GameRules where
  Pos : Type
  Move : Type
  legalMoves : Pos → List Move
  apply : Pos → Move → Pos
  isGameOver : Pos → Bool
  evaluate : Pos → ℤ

/-- The maximizing branch of `ChessAIEngine.minimax`: iterate over the
legal moves, keep `max_eval`, raise `alpha`, and break as soon as
`beta <= alpha` after the update.  `child m a b` stands for the recursive
call `self.minimax(board, depth-1, a, b, False)` made after pushing `m`. -/
def maxLoop {μ : Type} (child : μ → Score → Score → Score) :
    List μ → Score → Score → Score → Score
  | [], maxEval, _, _ => maxEval
  | m :: ms, maxEval, alpha, beta =>
    let e := child m alpha beta
    let maxEval' := max maxEval e
    let alpha' := max alpha e
    if beta ≤ alpha' then maxEval' else maxLoop child ms maxEval' alpha' beta

/-- The minimizing branch of `ChessAIEngine.minimax`: keep `min_eval`,
lower `beta`, and break as soon as `beta <= alpha` after the update. -/
def minLoop {μ : Type} (child : μ → Score → Score → Score) :
    List μ → Score → Score → Score → Score
  | [], minEval, _, _ => minEval
  | m :: ms, minEval, alpha, beta =>
    let e := child m alpha beta
    let minEval' := min minEval e
    let beta' := min beta e
    if beta' ≤ alpha then minEval' else minLoop child ms minEval' alpha beta'

/-- `ChessAIEngine.minimax(board, depth, alpha, beta, maximizing)`.
The depth argument comes first so that the recursion is structural on it;
`depth == 0 or board.is_game_over()` returns `self.evaluate(board)`, the
maximizing branch starts from `max_eval = -inf`, the minimizing branch
from `min_eval = inf`. -/
def minimax (g : GameRules) : Nat → g.Pos → Score → Score → Bool → Score
  | 0, pos, _, _, _ => Score.ofInt (g.evaluate pos)
  | depth+1, pos, alpha, beta, maximizing =>
    if g.isGameOver pos then Score.ofInt (g.evaluate pos)
    else if maximizing then
      maxLoop (fun m a b => minimax g depth (g.apply pos m) a b false)
        (g.legalMoves pos) ⊥ alpha beta
    else
      minLoop (fun m a b => minimax g depth (g.apply pos m) a b true)
        (g.legalMoves pos) ⊤ alpha beta

/-- The root loop of `ChessAIEngine.get_best_move`: for each legal move,
search the resulting position with the full window and
`maximizing=False`, and replace the running best only on a strictly
greater value. -/
def bestMoveLoop (g : GameRules) (board : g.Pos) (depth : Nat) :
    List g.Move → Option g.Move → Score → Option g.Move
  | [], bestMove, _ => bestMove
  | m :: ms, bestMove, bestValue =>
    let value := minimax g (depth - 1) (g.apply board m) ⊥ ⊤ false
    if bestValue < value then bestMoveLoop g board depth ms (some m) value
    else bestMoveLoop g board depth ms bestMove bestValue

/-- `ChessAIEngine.get_best_move(board)`, with the configured depth made
an explicit argument: `best_move = None`, `best_value = -inf`, then the
root loop over `board.legal_moves`. -/
def get_best_move (g : GameRules) (board : g.Pos) (depth : Nat) :
    Option g.Move :=
  bestMoveLoop g board depth (g.legalMoves board) none ⊥

/-- Maximum of the values of a list of moves, seeded at `-inf`
(reference definition for the unpruned traversal). -/
def listMax {μ : Type} (v : μ → Score) : List μ → Score
  | [] => ⊥
  | m :: ms => max (v m) (listMax v ms)

/-- Minimum of the values of a list of moves, seeded at `inf`. -/
def listMin {μ : Type} (v : μ → Score) : List μ → Score
  | [] => ⊤
  | m :: ms => min (v m) (listMin v ms)

/-- Modelled from the spec: the unpruned full minimax traversal of the
same game tree, against which the alpha-beta search is compared (spec
section 8, property 3).  No bounds are threaded; every child is visited. -/
def fullMinimax (g : GameRules) : Nat → g.Pos → Bool → Score
  | 0, pos, _ => Score.ofInt (g.evaluate pos)
  | depth+1, pos, maximizing =>
    if g.isGameOver pos then Score.ofInt (g.evaluate pos)
    else if maximizing then
      listMax (fun m => fullMinimax g depth (g.apply pos m) false) (g.legalMoves pos)
    else
      listMin (fun m => fullMinimax g depth (g.apply pos m) true) (g.legalMoves pos)

/-- Modelled from the spec: the first move of the list attaining the
maximal value, the reference selection rule of spec section 4.3
(strictly greatest value seen so far, first move wins ties). -/
def firstArgmax {μ : Type} (v : μ → Score) : List μ → Option μ
  | [] => none
  | m :: ms => if listMax v ms ≤ v m then some m else firstArgmax v ms

/-- The Rules Adapter contract of spec section 6: a position with no
legal moves (checkmate or stalemate) is reported game-over. -/
def NoMoveImpliesOver (g : GameRules) : Prop :=
  ∀ pos : g.Pos, g.legalMoves pos = [] → g.isGameOver pos = true

/-- A tiny concrete game used to exercise the theorems on closed inputs:
`false` is a live position with two moves, both leading to the terminal
position `true`. -/
def toyGame : GameRules where
  Pos := Bool
  Move := Bool
  legalMoves pos := match pos with | false => [false, true] | true => []
  apply _ _ := true
  isGameOver pos := pos
  evaluate pos := match pos with | false => 1 | true => 7

theorem toy_no_move_implies_over : NoMoveImpliesOver toyGame := by
  intro pos h
  cases pos
  · simp [toyGame] at h
  · rfl

/-- The mutable python-chess board shared across the whole search: its
current position together with the stack of previous positions that
`board.pop()` restores. -/
structure BoardState (g : GameRules) where
  cur : g.Pos
  hist : List g.Pos

/-- `board.push(move)`: apply the move and remember the previous position. -/
def bpush (g : GameRules) (b : BoardState g) (m : g.Move) : BoardState g :=
  ⟨g.apply b.cur m, b.cur :: b.hist⟩

/-- `board.pop()`: restore the most recently pushed position (identity on
an empty stack, which the engine never reaches). -/
def bpop (g : GameRules) (b : BoardState g) : BoardState g :=
  match b.hist with
  | [] => b
  | p :: ps => ⟨p, ps⟩

/-- Stateful rendering of the maximizing branch: `board.push(move)`,
the recursive call on the mutated board, `board.pop()`, then the updates
and the break test, threading the board through every step. -/
def maxLoopS (g : GameRules)
    (child : BoardState g → Score → Score → Score × BoardState g) :
    List g.Move → BoardState g → Score → Score → Score →
      Score × BoardState g
  | [], b, maxEval, _, _ => (maxEval, b)
  | m :: ms, b, maxEval, alpha, beta =>
    let r := child (bpush g b m) alpha beta
    let b' := bpop g r.2
    let maxEval' := max maxEval r.1
    let alpha' := max alpha r.1
    if beta ≤ alpha' then (maxEval', b')
    else maxLoopS g child ms b' maxEval' alpha' beta

/-- Stateful rendering of the minimizing branch. -/
def minLoopS (g : GameRules)
    (child : BoardState g → Score → Score → Score × BoardState g) :
    List g.Move → BoardState g → Score → Score → Score →
      Score × BoardState g
  | [], b, minEval, _, _ => (minEval, b)
  | m :: ms, b, minEval, alpha, beta =>
    let r := child (bpush g b m) alpha beta
    let b' := bpop g r.2
    let minEval' := min minEval r.1
    let beta' := min beta r.1
    if beta' ≤ alpha then (minEval', b')
    else minLoopS g child ms b' minEval' alpha beta'

/-- `ChessAIEngine.minimax` with the shared mutable board made explicit:
the returned pair is the score and the board state at return time. -/
def minimaxS (g : GameRules) : Nat → BoardState g → Score → Score → Bool →
    Score × BoardState g
  | 0, b, _, _, _ => (Score.ofInt (g.evaluate b.cur), b)
  | depth+1, b, alpha, beta, maximizing =>
    if g.isGameOver b.cur then (Score.ofInt (g.evaluate b.cur), b)
    else if maximizing then
      maxLoopS g (fun st a bb => minimaxS g depth st a bb false)
        (g.legalMoves b.cur) b ⊥ alpha beta
    else
      minLoopS g (fun st a bb => minimaxS g depth st a bb true)
        (g.legalMoves b.cur) b ⊤ alpha beta

/-- Stateful rendering of the root loop of `get_best_move`. -/
def bestMoveLoopS (g : GameRules) (depth : Nat) :
    List g.Move → BoardState g → Option g.Move → Score →
      Option g.Move × BoardState g
  | [], b, bestMove, _ => (bestMove, b)
  | m :: ms, b, bestMove, bestValue =>
    let r := minimaxS g (depth - 1) (bpush g b m) ⊥ ⊤ false
    let b' := bpop g r.2
    if bestValue < r.1 then bestMoveLoopS g depth ms b' (some m) r.1
    else bestMoveLoopS g depth ms b' bestMove bestValue

/-- `ChessAIEngine.get_best_move` with the shared board made explicit. -/
def get_best_moveS (g : GameRules) (b : BoardState g) (depth : Nat) :
    Option g.Move × BoardState g :=
  bestMoveLoopS g depth (g.legalMoves b.cur) b none ⊥

theorem bpop_bpush (g : GameRules) (b : BoardState g) (m : g.Move) :
    bpop g (bpush g b m) = b :=
  rfl

theorem bpush_cur (g : GameRules) (b : BoardState g) (m : g.Move) :
    (bpush g b m).cur = g.apply b.cur m :=
  rfl

theorem maxLoopS_eq (g : GameRules)
    (childS : BoardState g → Score → Score → Score × BoardState g)
    (childP : g.Pos → Score → Score → Score)
    (hchild : ∀ st a bb, childS st a bb = (childP st.cur a bb, st)) :
    ∀ (ms : List g.Move) (b : BoardState g) (acc alpha beta : Score),
      maxLoopS g childS ms b acc alpha beta =
        (maxLoop (fun m a bb => childP (g.apply b.cur m) a bb)
          ms acc alpha beta, b) := by
  intro ms
  induction ms with
  | nil => intro b acc alpha beta; rfl
  | cons m ms ihm =>
    intro b acc alpha beta
    simp only [maxLoopS, maxLoop, hchild, bpop_bpush, bpush_cur]
    by_cases hb : beta ≤ max alpha (childP (g.apply b.cur m) alpha beta)
    · rw [if_pos hb, if_pos hb]
    · rw [if_neg hb, if_neg hb]
      exact ihm b _ _ _

theorem minLoopS_eq (g : GameRules)
    (childS : BoardState g → Score → Score → Score × BoardState g)
    (childP : g.Pos → Score → Score → Score)
    (hchild : ∀ st a bb, childS st a bb = (childP st.cur a bb, st)) :
    ∀ (ms : List g.Move) (b : BoardState g) (acc alpha beta : Score),
      minLoopS g childS ms b acc alpha beta =
        (minLoop (fun m a bb => childP (g.apply b.cur m) a bb)
          ms acc alpha beta, b) := by
  intro ms
  induction ms with
  | nil => intro b acc alpha beta; rfl
  | cons m ms ihm =>
    intro b acc alpha beta
    simp only [minLoopS, minLoop, hchild, bpop_bpush, bpush_cur]
    by_cases hb : min beta (childP (g.apply b.cur m) alpha beta) ≤ alpha
    · rw [if_pos hb, if_pos hb]
    · rw [if_neg hb, if_neg hb]
      exact ihm b _ _ _

/-- The stateful search returns the pure value and leaves the board
exactly as it found it. -/
theorem minimaxS_eq (g : GameRules) :
    ∀ (depth : Nat) (b : BoardState g) (alpha beta : Score)
      (maximizing : Bool),
      minimaxS g depth b alpha beta maximizing =
        (minimax g depth b.cur alpha beta maximizing, b) := by
  intro depth
  induction depth with
  | zero => intro b alpha beta maximizing; rfl
  | succ d ih =>
    intro b alpha beta maximizing
    by_cases hover : g.isGameOver b.cur
    · simp [minimaxS, minimax, hover]
    · cases maximizing with
      | true =>
        simp only [minimaxS, minimax, hover, if_false, Bool.false_eq_true,
          if_true]
        exact maxLoopS_eq g _ (fun p a bb => minimax g d p a bb false)
          (fun st a bb => ih st a bb false) _ b _ _ _
      | false =>
        simp only [minimaxS, minimax, hover, if_false, Bool.false_eq_true,
          if_true]
        exact minLoopS_eq g _ (fun p a bb => minimax g d p a bb true)
          (fun st a bb => ih st a bb true) _ b _ _ _

/-- The stateful root selector returns the pure result and the untouched
board. -/
theorem get_best_moveS_eq (g : GameRules) (b : BoardState g) (depth : Nat) :
    get_best_moveS g b depth = (get_best_move g b.cur depth, b) := by
  have hloop :
      ∀ (ms : List g.Move) (b : BoardState g) (acc : Option g.Move)
        (bestValue : Score),
        bestMoveLoopS g depth ms b acc bestValue =
          (bestMoveLoop g b.cur depth ms acc bestValue, b) := by
    intro ms
    induction ms with
    | nil => intro b acc bestValue; rfl
    | cons m ms ihm =>
      intro b acc bestValue
      simp only [bestMoveLoopS, bestMoveLoop, minimaxS_eq, bpop_bpush,
        bpush_cur]
      by_cases hb :
          bestValue < minimax g (depth - 1) (g.apply b.cur m) ⊥ ⊤ false
      · rw [if_pos hb, if_pos hb]
        exact ihm b _ _
      · rw [if_neg hb, if_neg hb]
        exact ihm b _ _
  simp [get_best_moveS, get_best_move, hloop]

/-- Window soundness of a searched value `f alpha beta` against the exact
value `v` of the same node: below the window it is an upper bound on `v`,
inside the window it is exact, above the window it is a lower bound. -/
def KMprop (f : Score → Score → Score) (v : Score) : Prop :=
  ∀ alpha beta : Score, alpha < beta →
    (f alpha beta ≤ alpha → v ≤ f alpha beta) ∧
    (alpha < f alpha beta → f alpha beta < beta → f alpha beta = v) ∧
    (beta ≤ f alpha beta → f alpha beta ≤ v)

theorem maxLoop_ge {μ : Type} (child : μ → Score → Score → Score) :
    ∀ (ms : List μ) (acc alpha beta : Score),
      acc ≤ maxLoop child ms acc alpha beta := by
  intro ms
  induction ms with
  | nil => intro acc alpha beta; exact le_refl acc
  | cons m ms ihm =>
    intro acc alpha beta
    simp only [maxLoop]
    by_cases hp : beta ≤ max alpha (child m alpha beta)
    · rw [if_pos hp]; exact le_max_left _ _
    · rw [if_neg hp]
      exact (le_max_left _ _).trans (ihm _ _ _)

theorem minLoop_le {μ : Type} (child : μ → Score → Score → Score) :
    ∀ (ms : List μ) (acc alpha beta : Score),
      minLoop child ms acc alpha beta ≤ acc := by
  intro ms
  induction ms with
  | nil => intro acc alpha beta; exact le_refl acc
  | cons m ms ihm =>
    intro acc alpha beta
    simp only [minLoop]
    by_cases hp : min beta (child m alpha beta) ≤ alpha
    · rw [if_pos hp]; exact min_le_left _ _
    · rw [if_neg hp]
      exact (ihm _ _ _).trans (min_le_left _ _)

/-- Window soundness of the maximizing loop, assuming it of every child
call: the loop result relates to `max acc (listMax v ms)`, the exact
maximum over the accumulator and all children. -/
theorem maxLoop_bounds {μ : Type} (child : μ → Score → Score → Score)
    (v : μ → Score) :
    ∀ (ms : List μ), (∀ m ∈ ms, KMprop (child m) (v m)) →
      ∀ (acc alpha beta : Score), alpha < beta → acc ≤ alpha →
        (maxLoop child ms acc alpha beta ≤ alpha →
          max acc (listMax v ms) ≤ maxLoop child ms acc alpha beta) ∧
        (alpha < maxLoop child ms acc alpha beta →
          maxLoop child ms acc alpha beta < beta →
          maxLoop child ms acc alpha beta = max acc (listMax v ms)) ∧
        (beta ≤ maxLoop child ms acc alpha beta →
          maxLoop child ms acc alpha beta ≤ max acc (listMax v ms)) := by
  intro ms
  induction ms with
  | nil =>
    intro _ acc alpha beta hab hacc
    simp only [maxLoop, listMax]
    exact ⟨fun _ => (max_eq_left bot_le).le, fun _ _ => (max_eq_left bot_le).symm,
      fun _ => le_max_left _ _⟩
  | cons m ms ihm =>
    intro H acc alpha beta hab hacc
    have Hrest : ∀ m' ∈ ms, KMprop (child m') (v m') :=
      fun m' hm' => H m' (List.mem_cons_of_mem m hm')
    obtain ⟨c1, c2, c3⟩ := H m (List.mem_cons_self m ms) alpha beta hab
    simp only [maxLoop, listMax]
    by_cases hp : beta ≤ max alpha (child m alpha beta)
    · rw [if_pos hp]
      have hbe : beta ≤ child m alpha beta := by
        rcases max_choice alpha (child m alpha beta) with h | h
        · rw [h] at hp; exact absurd hab (not_lt.mpr hp)
        · rw [h] at hp; exact hp
      have hev : child m alpha beta ≤ v m := c3 hbe
      refine ⟨fun hle => ?_, fun _ h2 => ?_, fun _ => ?_⟩
      · exact absurd hab
          (not_lt.mpr (hbe.trans ((le_max_right acc _).trans hle)))
      · exact absurd h2
          (not_lt.mpr (hbe.trans (le_max_right acc _)))
      · exact max_le (le_max_left _ _)
          (hev.trans ((le_max_left _ _).trans (le_max_right acc _)))
    · rw [if_neg hp]
      have hab2 : max alpha (child m alpha beta) < beta := not_le.mp hp
      have hacc2 : max acc (child m alpha beta) ≤
          max alpha (child m alpha beta) := max_le_max hacc (le_refl _)
      obtain ⟨i1, i2, i3⟩ := ihm Hrest (max acc (child m alpha beta))
        (max alpha (child m alpha beta)) beta hab2 hacc2
      by_cases hca : child m alpha beta ≤ alpha
      · -- the child failed low: its result bounds its exact value from above
        have hva : v m ≤ child m alpha beta := c1 hca
        have haeq : max alpha (child m alpha beta) = alpha := max_eq_left hca
        have hTT : max acc (max (v m) (listMax v ms)) ≤
            max (max acc (child m alpha beta)) (listMax v ms) := by
          rw [max_assoc]
          exact max_le_max (le_refl acc) (max_le_max hva (le_refl _))
        refine ⟨fun hle => ?_, fun h1 h2 => ?_, fun hbg => ?_⟩
        · exact hTT.trans (i1 (hle.trans haeq.ge))
        · have hg := i2 (haeq.le.trans_lt h1) h2
          rcases le_max_iff.mp hg.le with hc | hc
          · exact absurd h1 (not_lt.mpr (hc.trans (max_le hacc hca)))
          · have hMG : listMax v ms ≤ maxLoop child ms
                (max acc (child m alpha beta))
                (max alpha (child m alpha beta)) beta :=
              (le_max_right _ _).trans hg.ge
            refine le_antisymm
              (hc.trans ((le_max_right (v m) _).trans (le_max_right acc _)))
              (max_le (hacc.trans h1.le)
                (max_le ((hva.trans hca).trans h1.le) hMG))
        · have hgT := i3 hbg
          rcases le_max_iff.mp hgT with hc | hc
          · exact absurd hab
              (not_lt.mpr (hbg.trans (hc.trans (max_le hacc hca))))
          · exact hc.trans ((le_max_right (v m) _).trans (le_max_right acc _))
      · -- the child value lies inside the window: it is exact
        have hae : alpha < child m alpha beta := not_le.mp hca
        have heb : child m alpha beta < beta :=
          lt_of_le_of_lt (le_max_right alpha _) hab2
        have hev : child m alpha beta = v m := c2 hae heb
        have hTeq : max (max acc (child m alpha beta)) (listMax v ms) =
            max acc (max (v m) (listMax v ms)) := by
          rw [max_assoc, hev]
        refine ⟨fun hle => ?_, fun h1 h2 => ?_, fun hbg => ?_⟩
        · exact hTeq ▸ i1 (hle.trans (le_max_left alpha _))
        · by_cases hga : max alpha (child m alpha beta) <
              maxLoop child ms (max acc (child m alpha beta))
                (max alpha (child m alpha beta)) beta
          · exact (i2 hga h2).trans hTeq
          · have hga2 := not_lt.mp hga
            have hTg := hTeq ▸ i1 hga2
            have hge : maxLoop child ms (max acc (child m alpha beta))
                (max alpha (child m alpha beta)) beta ≤ child m alpha beta := by
              rcases le_max_iff.mp hga2 with hc | hc
              · exact absurd h1 (not_lt.mpr hc)
              · exact hc
            have heg : child m alpha beta ≤
                maxLoop child ms (max acc (child m alpha beta))
                  (max alpha (child m alpha beta)) beta :=
              (le_max_right acc _).trans (maxLoop_ge child ms _ _ _)
            exact le_antisymm
              (((le_antisymm hge heg).trans hev).le.trans
                ((le_max_left (v m) _).trans (le_max_right acc _)))
              hTg
        · exact (i3 hbg).trans hTeq.le

/-- Window soundness of the minimizing loop, the dual of
`maxLoop_bounds`: the loop result relates to `min acc (listMin v ms)`. -/
theorem minLoop_bounds {μ : Type} (child : μ → Score → Score → Score)
    (v : μ → Score) :
    ∀ (ms : List μ), (∀ m ∈ ms, KMprop (child m) (v m)) →
      ∀ (acc alpha beta : Score), alpha < beta → beta ≤ acc →
        (minLoop child ms acc alpha beta ≤ alpha →
          min acc (listMin v ms) ≤ minLoop child ms acc alpha beta) ∧
        (alpha < minLoop child ms acc alpha beta →
          minLoop child ms acc alpha beta < beta →
          minLoop child ms acc alpha beta = min acc (listMin v ms)) ∧
        (beta ≤ minLoop child ms acc alpha beta →
          minLoop child ms acc alpha beta ≤ min acc (listMin v ms)) := by
  intro ms
  induction ms with
  | nil =>
    intro _ acc alpha beta hab hacc
    simp only [minLoop, listMin]
    exact ⟨fun _ => (min_eq_left le_top).le, fun _ _ => (min_eq_left le_top).symm,
      fun _ => (min_eq_left le_top).ge⟩
  | cons m ms ihm =>
    intro H acc alpha beta hab hacc
    have Hrest : ∀ m' ∈ ms, KMprop (child m') (v m') :=
      fun m' hm' => H m' (List.mem_cons_of_mem m hm')
    obtain ⟨c1, c2, c3⟩ := H m (List.mem_cons_self m ms) alpha beta hab
    simp only [minLoop, listMin]
    by_cases hp : min beta (child m alpha beta) ≤ alpha
    · rw [if_pos hp]
      have hea : child m alpha beta ≤ alpha := by
        rcases min_le_iff.mp hp with h | h
        · exact absurd hab (not_lt.mpr h)
        · exact h
      have hve : v m ≤ child m alpha beta := c1 hea
      refine ⟨fun hle => ?_, fun h1 _ => ?_, fun hbg => ?_⟩
      · exact le_min (min_le_left acc _)
          (((min_le_right acc _).trans (min_le_left (v m) _)).trans hve)
      · exact absurd h1 (not_lt.mpr ((min_le_right acc _).trans hea))
      · exact absurd hab
          (not_lt.mpr (hbg.trans ((min_le_right acc _).trans hea)))
    · rw [if_neg hp]
      have hab2 : alpha < min beta (child m alpha beta) := not_le.mp hp
      have hacc2 : min beta (child m alpha beta) ≤
          min acc (child m alpha beta) := min_le_min hacc (le_refl _)
      obtain ⟨i1, i2, i3⟩ := ihm Hrest (min acc (child m alpha beta))
        alpha (min beta (child m alpha beta)) hab2 hacc2
      by_cases hcb : beta ≤ child m alpha beta
      · -- the child failed high: its result bounds its exact value from below
        have hve : child m alpha beta ≤ v m := c3 hcb
        have hbeq : min beta (child m alpha beta) = beta := min_eq_left hcb
        have hTT : min (min acc (child m alpha beta)) (listMin v ms) ≤
            min acc (min (v m) (listMin v ms)) := by
          rw [min_assoc]
          exact min_le_min (le_refl acc) (min_le_min hve (le_refl _))
        refine ⟨fun hle => ?_, fun h1 h2 => ?_, fun hbg => ?_⟩
        · rcases min_le_iff.mp (i1 hle) with hc | hc
          · rcases min_le_iff.mp hc with hc2 | hc2
            · exact (min_le_left acc _).trans hc2
            · exact absurd hab
                (not_lt.mpr ((hcb.trans hc2).trans hle))
          · exact ((min_le_right acc _).trans (min_le_right (v m) _)).trans hc
        · have hg := i2 h1 (h2.trans_le hbeq.ge)
          rcases min_le_iff.mp hg.ge with hc | hc
          · exact absurd h2 (not_lt.mpr ((le_min hacc hcb).trans hc))
          · have hGM : minLoop child ms (min acc (child m alpha beta))
                alpha (min beta (child m alpha beta)) ≤ listMin v ms :=
              hg.le.trans (min_le_right _ _)
            refine le_antisymm
              (le_min (h2.le.trans hacc)
                (le_min (h2.le.trans (hcb.trans hve)) hGM))
              (((min_le_right acc _).trans (min_le_right (v m) _)).trans hc)
        · exact (i3 (hbeq.le.trans hbg)).trans hTT
      · -- the child value lies inside the window: it is exact
        have heb : child m alpha beta < beta := not_le.mp hcb
        have hae : alpha < child m alpha beta :=
          hab2.trans_le (min_le_right beta _)
        have hev : child m alpha beta = v m := c2 hae heb
        have hTeq : min (min acc (child m alpha beta)) (listMin v ms) =
            min acc (min (v m) (listMin v ms)) := by
          rw [min_assoc, hev]
        refine ⟨fun hle => ?_, fun h1 h2 => ?_, fun hbg => ?_⟩
        · exact hTeq ▸ i1 hle
        · by_cases hgb : minLoop child ms (min acc (child m alpha beta))
              alpha (min beta (child m alpha beta)) <
              min beta (child m alpha beta)
          · exact (i2 h1 hgb).trans hTeq
          · have hgb2 := not_lt.mp hgb
            have hTg := hTeq ▸ i3 hgb2
            have hge : child m alpha beta ≤
                minLoop child ms (min acc (child m alpha beta))
                  alpha (min beta (child m alpha beta)) := by
              rcases min_le_iff.mp hgb2 with hc | hc
              · exact absurd h2 (not_lt.mpr hc)
              · exact hc
            have heg : minLoop child ms (min acc (child m alpha beta))
                alpha (min beta (child m alpha beta)) ≤
                child m alpha beta :=
              (minLoop_le child ms _ _ _).trans (min_le_right acc _)
            exact le_antisymm hTg
              (((min_le_right acc _).trans (min_le_left (v m) _)).trans
                (hev.symm.le.trans hge))
        · exact (i3 ((min_le_left beta _).trans hbg)).trans hTeq.le

/-- Window soundness of the whole search against the unpruned minimax
value, by induction on the depth. -/
theorem minimax_window (g : GameRules) :
    ∀ (depth : Nat) (pos : g.Pos) (maximizing : Bool),
      KMprop (fun a b => minimax g depth pos a b maximizing)
        (fullMinimax g depth pos maximizing) := by
  intro depth
  induction depth with
  | zero =>
    intro pos maximizing alpha beta _
    exact ⟨fun _ => le_refl _, fun _ _ => rfl, fun _ => le_refl _⟩
  | succ d ih =>
    intro pos maximizing alpha beta hab
    beta_reduce
    by_cases hover : g.isGameOver pos
    · have e1 : minimax g (d+1) pos alpha beta maximizing =
          Score.ofInt (g.evaluate pos) := by
        simp [minimax, hover]
      have e2 : fullMinimax g (d+1) pos maximizing =
          Score.ofInt (g.evaluate pos) := by
        simp [fullMinimax, hover]
      refine ⟨fun _ => ?_, fun _ _ => ?_, fun _ => ?_⟩
      · exact le_of_eq (e2.trans e1.symm)
      · exact e1.trans e2.symm
      · exact le_of_eq (e1.trans e2.symm)
    · cases maximizing with
      | true =>
        have e1 : minimax g (d+1) pos alpha beta true =
            maxLoop (fun m a b => minimax g d (g.apply pos m) a b false)
              (g.legalMoves pos) ⊥ alpha beta := by
          simp [minimax, hover]
        have e2 : fullMinimax g (d+1) pos true =
            listMax (fun m => fullMinimax g d (g.apply pos m) false)
              (g.legalMoves pos) := by
          simp [fullMinimax, hover]
        have h := maxLoop_bounds
          (fun m a b => minimax g d (g.apply pos m) a b false)
          (fun m => fullMinimax g d (g.apply pos m) false)
          (g.legalMoves pos)
          (fun m _ => ih (g.apply pos m) false)
          ⊥ alpha beta hab bot_le
        rw [max_eq_right bot_le] at h
        rw [e1, e2]
        exact h
      | false =>
        have e1 : minimax g (d+1) pos alpha beta false =
            minLoop (fun m a b => minimax g d (g.apply pos m) a b true)
              (g.legalMoves pos) ⊤ alpha beta := by
          simp [minimax, hover]
        have e2 : fullMinimax g (d+1) pos false =
            listMin (fun m => fullMinimax g d (g.apply pos m) true)
              (g.legalMoves pos) := by
          simp [fullMinimax, hover]
        have h := minLoop_bounds
          (fun m a b => minimax g d (g.apply pos m) a b true)
          (fun m => fullMinimax g d (g.apply pos m) true)
          (g.legalMoves pos)
          (fun m _ => ih (g.apply pos m) true)
          ⊤ alpha beta hab le_top
        rw [min_eq_right le_top] at h
        rw [e1, e2]
        exact h

/-- C1: for every position, every depth, and either perspective flag,
the alpha-beta search started with the full window returns exactly the
value of the unpruned full minimax traversal of the same game tree;
pruning never changes the returned value. -/
theorem alphabeta_full_window_eq_minimax (g : GameRules) (depth : Nat)
    (pos : g.Pos) (maximizing : Bool) :
    minimax g depth pos ⊥ ⊤ maximizing = fullMinimax g depth pos maximizing := by
  obtain ⟨h1, h2, h3⟩ := minimax_window g depth pos maximizing ⊥ ⊤ bot_lt_top
  rcases le_or_lt (minimax g depth pos ⊥ ⊤ maximizing) ⊥ with hle | hgt
  · have hbot := le_bot_iff.mp hle
    have hv := le_bot_iff.mp ((h1 hle).trans hle)
    rw [hbot, hv]
  · rcases lt_or_le (minimax g depth pos ⊥ ⊤ maximizing) ⊤ with hlt | hge
    · exact h2 hgt hlt
    · have htop := top_le_iff.mp hge
      have hv := top_le_iff.mp (le_trans hge (h3 hge))
      rw [htop, hv]

/-- The argument tuple of one invocation of `minimax`. -/
structure CallArgs (g : GameRules) where
  pos : g.Pos
  depth : Nat
  alpha : Score
  beta : Score
  maximizing : Bool

/-- The recursive calls made by the maximizing loop: each iteration calls
the child with the window current at that iteration, before the updates;
after the updates the loop breaks as soon as `beta ≤ alpha`, so no later
call is made. -/
def maxLoopCalls {μ : Type} (child : μ → Score → Score → Score) :
    List μ → Score → Score → List (μ × Score × Score)
  | [], _, _ => []
  | m :: ms, alpha, beta =>
    let e := child m alpha beta
    let alpha' := max alpha e
    (m, alpha, beta) ::
      (if beta ≤ alpha' then [] else maxLoopCalls child ms alpha' beta)

/-- The recursive calls made by the minimizing loop. -/
def minLoopCalls {μ : Type} (child : μ → Score → Score → Score) :
    List μ → Score → Score → List (μ × Score × Score)
  | [], _, _ => []
  | m :: ms, alpha, beta =>
    let e := child m alpha beta
    let beta' := min beta e
    (m, alpha, beta) ::
      (if beta' ≤ alpha then [] else minLoopCalls child ms alpha beta')

/-- The direct recursive calls one invocation of `minimax` performs: none
at depth zero or on a game-over position, otherwise one call per
non-pruned legal move, at depth one less and with the flipped flag. -/
def directCalls (g : GameRules) : CallArgs g → List (CallArgs g)
  | ⟨_, 0, _, _, _⟩ => []
  | ⟨pos, depth+1, alpha, beta, maximizing⟩ =>
    if g.isGameOver pos then []
    else if maximizing then
      (maxLoopCalls (fun m a b => minimax g depth (g.apply pos m) a b false)
          (g.legalMoves pos) alpha beta).map
        (fun t => ⟨g.apply pos t.1, depth, t.2.1, t.2.2, false⟩)
    else
      (minLoopCalls (fun m a b => minimax g depth (g.apply pos m) a b true)
          (g.legalMoves pos) alpha beta).map
        (fun t => ⟨g.apply pos t.1, depth, t.2.1, t.2.2, true⟩)

/-- The calls `get_best_move` makes on the root moves: every legal move
is searched with the full window and `maximizing=false`; the root loop
never prunes. -/
def rootCalls (g : GameRules) (board : g.Pos) (depth : Nat) :
    List (CallArgs g) :=
  (g.legalMoves board).map
    (fun m => ⟨g.apply board m, depth - 1, ⊥, ⊤, false⟩)

/-- Reachability in the recursion tree of the search. -/
def CallReachable (g : GameRules) (root c : CallArgs g) : Prop :=
  Relation.ReflTransGen (fun x y => y ∈ directCalls g x) root c

theorem maxLoopCalls_window {μ : Type} (child : μ → Score → Score → Score) :
    ∀ (ms : List μ) (alpha beta : Score), alpha < beta →
      ∀ t ∈ maxLoopCalls child ms alpha beta, t.2.1 < t.2.2 := by
  intro ms
  induction ms with
  | nil => intro alpha beta _ t ht; simp [maxLoopCalls] at ht
  | cons m ms ihm =>
    intro alpha beta hab t ht
    simp only [maxLoopCalls, List.mem_cons] at ht
    rcases ht with rfl | ht
    · exact hab
    · by_cases hp : beta ≤ max alpha (child m alpha beta)
      · rw [if_pos hp] at ht; simp at ht
      · rw [if_neg hp] at ht
        exact ihm _ beta (not_le.mp hp) t ht

theorem minLoopCalls_window {μ : Type} (child : μ → Score → Score → Score) :
    ∀ (ms : List μ) (alpha beta : Score), alpha < beta →
      ∀ t ∈ minLoopCalls child ms alpha beta, t.2.1 < t.2.2 := by
  intro ms
  induction ms with
  | nil => intro alpha beta _ t ht; simp [minLoopCalls] at ht
  | cons m ms ihm =>
    intro alpha beta hab t ht
    simp only [minLoopCalls, List.mem_cons] at ht
    rcases ht with rfl | ht
    · exact hab
    · by_cases hp : min beta (child m alpha beta) ≤ alpha
      · rw [if_pos hp] at ht; simp at ht
      · rw [if_neg hp] at ht
        exact ihm alpha _ (not_le.mp hp) t ht

/-- One step of the recursion: the depth drops by exactly one, the flag
flips, and a window with `alpha < beta` begets windows with
`alpha < beta`. -/
theorem directCalls_step (g : GameRules) (c c' : CallArgs g)
    (h : c' ∈ directCalls g c) :
    c'.depth + 1 = c.depth ∧ c'.maximizing = !c.maximizing ∧
      (c.alpha < c.beta → c'.alpha < c'.beta) := by
  obtain ⟨pos, depth, alpha, beta, maximizing⟩ := c
  cases depth with
  | zero => simp [directCalls] at h
  | succ d =>
    simp only [directCalls] at h
    by_cases hover : g.isGameOver pos
    · rw [if_pos hover] at h; simp at h
    · rw [if_neg hover] at h
      cases maximizing with
      | true =>
        simp only [if_true, List.mem_map] at h
        obtain ⟨t, ht, rfl⟩ := h
        exact ⟨rfl, rfl, fun hab => maxLoopCalls_window _ _ _ _ hab t ht⟩
      | false =>
        simp only [Bool.false_eq_true, if_false, List.mem_map] at h
        obtain ⟨t, ht, rfl⟩ := h
        exact ⟨rfl, rfl, fun hab => minLoopCalls_window _ _ _ _ hab t ht⟩

/-- Along any path of the recursion tree the depth never grows, a root
window with `alpha < beta` keeps `alpha < beta`, and the flag is a pure
function of the number of plies descended. -/
theorem callReachable_invariant (g : GameRules) (root c : CallArgs g)
    (h : CallReachable g root c) :
    c.depth ≤ root.depth ∧
      (root.alpha < root.beta → c.alpha < c.beta) ∧
      c.maximizing =
        (root.maximizing ^^ decide ((root.depth - c.depth) % 2 = 1)) := by
  induction h with
  | refl =>
    refine ⟨le_refl _, fun hx => hx, ?_⟩
    simp
  | @tail b c hsteps hstep ih =>
    obtain ⟨hd, hm, hw⟩ := directCalls_step g b c hstep
    obtain ⟨ihd, ihw, ihm⟩ := ih
    refine ⟨by omega, fun hab => hw (ihw hab), ?_⟩
    have heq : root.depth - c.depth = (root.depth - b.depth) + 1 := by omega
    rw [hm, ihm, heq]
    rcases Nat.mod_two_eq_zero_or_one (root.depth - b.depth) with hn | hn
    · have h1 : (root.depth - b.depth + 1) % 2 = 1 := by omega
      rw [hn, h1]
      simp
    · have h0 : (root.depth - b.depth + 1) % 2 = 0 := by omega
      rw [hn, h0]
      simp

/-- C7: every recursive call reachable from a root invocation with the
full window `(-inf, inf)` is entered with `alpha ≤ beta`: the bound
updates and the break-on-prune test preserve the invariant at the entry
of every call in the recursion tree. -/
theorem alpha_le_beta_at_every_call (g : GameRules) (pos : g.Pos)
    (depth : Nat) (maximizing : Bool) (c : CallArgs g)
    (h : CallReachable g ⟨pos, depth, ⊥, ⊤, maximizing⟩ c) :
    c.alpha ≤ c.beta :=
  ((callReachable_invariant g ⟨pos, depth, ⊥, ⊤, maximizing⟩ c h).2.1
    bot_lt_top).le

/-- C9: the depth strictly decreases on every recursive call of the
search, so the call relation is well founded: every search runs to
completion for the requested depth, with no other stopping mechanism in
the model. -/
theorem search_terminates (g : GameRules) :
    (∀ c c' : CallArgs g, c' ∈ directCalls g c → c'.depth < c.depth) ∧
      WellFounded (fun c' c : CallArgs g => c' ∈ directCalls g c) := by
  have hdec : ∀ c c' : CallArgs g, c' ∈ directCalls g c →
      c'.depth < c.depth := by
    intro c c' h
    have := (directCalls_step g c c' h).1
    omega
  refine ⟨hdec, Subrelation.wf (r := InvImage Nat.lt CallArgs.depth)
    (fun {c' c} h => hdec c c' h) (InvImage.wf _ Nat.lt_wfRel.wf)⟩

/-- C3: a call at depth zero, and likewise a call on a position reported
game-over, returns exactly the static evaluation of the position and
performs no recursive call on any move. -/
theorem minimax_terminal (g : GameRules) (depth : Nat) (pos : g.Pos)
    (alpha beta : Score) (maximizing : Bool)
    (h : depth = 0 ∨ g.isGameOver pos = true) :
    minimax g depth pos alpha beta maximizing =
        Score.ofInt (g.evaluate pos) ∧
      directCalls g ⟨pos, depth, alpha, beta, maximizing⟩ = [] := by
  cases depth with
  | zero => exact ⟨rfl, rfl⟩
  | succ d =>
    have hover : g.isGameOver pos = true := by
      rcases h with h | h
      · exact absurd h (Nat.succ_ne_zero d)
      · exact h
    constructor
    · simp [minimax, hover]
    · simp [directCalls, hover]

/-- Helper for the root loop characterization: the first element whose
value strictly exceeds the running best `bv` and dominates all later
values, with `bv` updated like the loop updates `best_value`. -/
def firstArgmaxGt {μ : Type} (v : μ → Score) : Score → List μ → Option μ
  | _, [] => none
  | bv, m :: ms =>
    if bv < v m ∧ listMax v ms ≤ v m then some m
    else firstArgmaxGt v (max bv (v m)) ms

theorem bestMoveLoop_eq (g : GameRules) (board : g.Pos) (depth : Nat) :
    ∀ (ms : List g.Move) (bm : Option g.Move) (bv : Score),
      bestMoveLoop g board depth ms bm bv =
        if listMax (fun m => minimax g (depth - 1) (g.apply board m) ⊥ ⊤ false)
            ms ≤ bv then bm
        else firstArgmaxGt
          (fun m => minimax g (depth - 1) (g.apply board m) ⊥ ⊤ false)
          bv ms := by
  intro ms
  induction ms with
  | nil =>
    intro bm bv
    simp [bestMoveLoop, listMax]
  | cons m ms ihm =>
    intro bm bv
    simp only [bestMoveLoop, listMax, firstArgmaxGt]
    by_cases hb : bv < minimax g (depth - 1) (g.apply board m) ⊥ ⊤ false
    · rw [if_pos hb, ihm]
      have hmax : ¬ (max (minimax g (depth - 1) (g.apply board m) ⊥ ⊤ false)
          (listMax (fun m => minimax g (depth - 1) (g.apply board m) ⊥ ⊤ false)
            ms) ≤ bv) :=
        fun hc => absurd hb (not_lt.mpr ((le_max_left _ _).trans hc))
      rw [if_neg hmax]
      by_cases hrest : listMax
          (fun m => minimax g (depth - 1) (g.apply board m) ⊥ ⊤ false) ms ≤
          minimax g (depth - 1) (g.apply board m) ⊥ ⊤ false
      · rw [if_pos hrest, if_pos ⟨hb, hrest⟩]
      · rw [if_neg hrest,
          if_neg (fun hc : _ ∧ _ => absurd hc.2 hrest),
          max_eq_right hb.le]
    · rw [if_neg hb, ihm]
      have hvm := not_lt.mp hb
      by_cases hrest : listMax
          (fun m => minimax g (depth - 1) (g.apply board m) ⊥ ⊤ false) ms ≤ bv
      · rw [if_pos hrest, if_pos (max_le hvm hrest)]
      · rw [if_neg hrest,
          if_neg (fun hc => hrest ((le_max_right _ _).trans hc)),
          if_neg (fun hc : _ ∧ _ => absurd hc.1 hb),
          max_eq_left hvm]

theorem firstArgmaxGt_eq_firstArgmax {μ : Type} (v : μ → Score) :
    ∀ (ms : List μ) (bv : Score), bv < listMax v ms →
      firstArgmaxGt v bv ms = firstArgmax v ms := by
  intro ms
  induction ms with
  | nil => intro bv hbv; exact absurd hbv (not_lt_bot)
  | cons m ms ihm =>
    intro bv hbv
    simp only [firstArgmaxGt, firstArgmax, listMax] at hbv ⊢
    by_cases hc : listMax v ms ≤ v m
    · have hbm : bv < v m := by
        rw [max_eq_left hc] at hbv
        exact hbv
      rw [if_pos ⟨hbm, hc⟩, if_pos hc]
    · have hlt := not_le.mp hc
      rw [max_eq_right hlt.le] at hbv
      rw [if_neg (fun hx : _ ∧ _ => absurd hx.2 hc), if_neg hc]
      exact ihm _ (max_lt hbv hlt)

theorem maxLoop_attained {μ : Type} (child : μ → Score → Score → Score) :
    ∀ (ms : List μ) (acc alpha beta : Score),
      maxLoop child ms acc alpha beta = acc ∨
        ∃ m ∈ ms, ∃ a b, maxLoop child ms acc alpha beta = child m a b := by
  intro ms
  induction ms with
  | nil => intro acc alpha beta; exact Or.inl rfl
  | cons m ms ihm =>
    intro acc alpha beta
    simp only [maxLoop]
    by_cases hp : beta ≤ max alpha (child m alpha beta)
    · rw [if_pos hp]
      rcases max_choice acc (child m alpha beta) with hc | hc
      · exact Or.inl hc
      · exact Or.inr ⟨m, List.mem_cons_self m ms, alpha, beta, hc⟩
    · rw [if_neg hp]
      rcases ihm (max acc (child m alpha beta)) (max alpha (child m alpha beta))
          beta with hc | ⟨m', hm', a, b, hc⟩
      · rcases max_choice acc (child m alpha beta) with hc2 | hc2
        · exact Or.inl (hc.trans hc2)
        · exact Or.inr ⟨m, List.mem_cons_self m ms, alpha, beta, hc.trans hc2⟩
      · exact Or.inr ⟨m', List.mem_cons_of_mem m hm', a, b, hc⟩

theorem minLoop_attained {μ : Type} (child : μ → Score → Score → Score) :
    ∀ (ms : List μ) (acc alpha beta : Score),
      minLoop child ms acc alpha beta = acc ∨
        ∃ m ∈ ms, ∃ a b, minLoop child ms acc alpha beta = child m a b := by
  intro ms
  induction ms with
  | nil => intro acc alpha beta; exact Or.inl rfl
  | cons m ms ihm =>
    intro acc alpha beta
    simp only [minLoop]
    by_cases hp : min beta (child m alpha beta) ≤ alpha
    · rw [if_pos hp]
      rcases min_choice acc (child m alpha beta) with hc | hc
      · exact Or.inl hc
      · exact Or.inr ⟨m, List.mem_cons_self m ms, alpha, beta, hc⟩
    · rw [if_neg hp]
      rcases ihm (min acc (child m alpha beta)) alpha
          (min beta (child m alpha beta)) with hc | ⟨m', hm', a, b, hc⟩
      · rcases min_choice acc (child m alpha beta) with hc2 | hc2
        · exact Or.inl (hc.trans hc2)
        · exact Or.inr ⟨m, List.mem_cons_self m ms, alpha, beta, hc.trans hc2⟩
      · exact Or.inr ⟨m', List.mem_cons_of_mem m hm', a, b, hc⟩

/-- Under the adapter contract, every search value is a value the
evaluator produced at some position: the sentinels are never returned. -/
theorem minimax_evaluates (g : GameRules) (h : NoMoveImpliesOver g) :
    ∀ (depth : Nat) (pos : g.Pos) (alpha beta : Score) (maximizing : Bool),
      ∃ q : g.Pos, minimax g depth pos alpha beta maximizing =
        Score.ofInt (g.evaluate q) := by
  intro depth
  induction depth with
  | zero => intro pos alpha beta maximizing; exact ⟨pos, rfl⟩
  | succ d ih =>
    intro pos alpha beta maximizing
    by_cases hover : g.isGameOver pos
    · exact ⟨pos, by simp [minimax, hover]⟩
    · cases hmv : g.legalMoves pos with
      | nil => exact absurd (h pos hmv) hover
      | cons m ms =>
        cases maximizing with
        | true =>
          have e1 : minimax g (d+1) pos alpha beta true =
              maxLoop (fun m a b => minimax g d (g.apply pos m) a b false)
                (m :: ms) ⊥ alpha beta := by
            simp [minimax, hover, hmv]
          rw [e1]
          simp only [maxLoop, max_eq_right bot_le]
          by_cases hp : beta ≤
              max alpha (minimax g d (g.apply pos m) alpha beta false)
          · rw [if_pos hp]
            exact ih (g.apply pos m) alpha beta false
          · rw [if_neg hp]
            rcases maxLoop_attained
                (fun m a b => minimax g d (g.apply pos m) a b false) ms
                (minimax g d (g.apply pos m) alpha beta false)
                (max alpha (minimax g d (g.apply pos m) alpha beta false))
                beta with hc | ⟨m', _, a, b, hc⟩
            · rw [hc]
              exact ih (g.apply pos m) alpha beta false
            · rw [hc]
              exact ih (g.apply pos m') a b false
        | false =>
          have e1 : minimax g (d+1) pos alpha beta false =
              minLoop (fun m a b => minimax g d (g.apply pos m) a b true)
                (m :: ms) ⊤ alpha beta := by
            simp [minimax, hover, hmv]
          rw [e1]
          simp only [minLoop, min_eq_right le_top]
          by_cases hp :
              min beta (minimax g d (g.apply pos m) alpha beta true) ≤ alpha
          · rw [if_pos hp]
            exact ih (g.apply pos m) alpha beta true
          · rw [if_neg hp]
            rcases minLoop_attained
                (fun m a b => minimax g d (g.apply pos m) a b true) ms
                (minimax g d (g.apply pos m) alpha beta true) alpha
                (min beta (minimax g d (g.apply pos m) alpha beta true))
                with hc | ⟨m', _, a, b, hc⟩
            · rw [hc]
              exact ih (g.apply pos m) alpha beta true
            · rw [hc]
              exact ih (g.apply pos m') a b true

/-- Under the adapter contract the root selector is exactly the
first-argmax rule over the root values. -/
theorem get_best_move_eq_firstArgmax (g : GameRules)
    (h : NoMoveImpliesOver g) (board : g.Pos) (depth : Nat) :
    get_best_move g board depth =
      firstArgmax
        (fun m => minimax g (depth - 1) (g.apply board m) ⊥ ⊤ false)
        (g.legalMoves board) := by
  rw [get_best_move, bestMoveLoop_eq]
  cases hmv : g.legalMoves board with
  | nil => simp [listMax, firstArgmax]
  | cons m ms =>
    obtain ⟨q, hq⟩ := minimax_evaluates g h (depth - 1) (g.apply board m) ⊥ ⊤
      false
    have hbot : (⊥ : Score) <
        minimax g (depth - 1) (g.apply board m) ⊥ ⊤ false := by
      rw [hq]; exact Score.bot_lt_ofInt _
    have hlt : (⊥ : Score) < listMax
        (fun m => minimax g (depth - 1) (g.apply board m) ⊥ ⊤ false)
        (m :: ms) :=
      lt_of_lt_of_le hbot (le_max_left _ _)
    rw [if_neg (not_le.mpr hlt)]
    exact firstArgmaxGt_eq_firstArgmax _ (m :: ms) ⊥ hlt

/-- A nonempty list always has a first argmax. -/
theorem firstArgmax_ne_none {μ : Type} (v : μ → Score) :
    ∀ (ms : List μ), ms ≠ [] → firstArgmax v ms ≠ none := by
  intro ms
  induction ms with
  | nil => intro hne; exact absurd rfl hne
  | cons m ms ihm =>
    intro _
    simp only [firstArgmax]
    by_cases hc : listMax v ms ≤ v m
    · rw [if_pos hc]; exact Option.some_ne_none m
    · rw [if_neg hc]
      cases ms with
      | nil => exact absurd bot_le hc
      | cons m2 ms2 => exact ihm (List.cons_ne_nil m2 ms2)

/-- C2: after the search returns, the shared board is identical to its
pre-call state: every push performed anywhere in the recursion, on every
path including pruning exits, is matched by exactly one pop before the
enclosing call returns, both inside `minimax` and in `get_best_move`. -/
theorem position_restored_after_search (g : GameRules) :
    (∀ (depth : Nat) (b : BoardState g) (alpha beta : Score)
        (maximizing : Bool),
        (minimaxS g depth b alpha beta maximizing).2 = b) ∧
      (∀ (b : BoardState g) (depth : Nat),
        (get_best_moveS g b depth).2 = b) := by
  constructor
  · intro depth b alpha beta maximizing
    rw [minimaxS_eq]
  · intro b depth
    rw [get_best_moveS_eq]

/-- C5: if several root moves yield the same best score, the selector
returns the one appearing first in the adapter's enumeration order,
because only a strictly greater value replaces the running best: under
the adapter contract the result is exactly the first argmax of the root
values. -/
theorem root_tie_break_first_move (g : GameRules)
    (h : NoMoveImpliesOver g) (board : g.Pos) (depth : Nat) :
    get_best_move g board depth =
      firstArgmax
        (fun m => minimax g (depth - 1) (g.apply board m) ⊥ ⊤ false)
        (g.legalMoves board) :=
  get_best_move_eq_firstArgmax g h board depth

/-- C6: on a position with zero legal moves at the root (stalemate or
checkmate) the selector signals no move rather than returning an
arbitrary move. -/
theorem no_legal_moves_gives_none (g : GameRules) (board : g.Pos)
    (depth : Nat) (h : g.legalMoves board = []) :
    get_best_move g board depth = none := by
  rw [get_best_move, h]
  rfl

/-- C8: the perspective flag flips purely by ply count and is independent
of the side to move, which does not even appear in the recursion: every
root child is searched with `maximizing = false`, every reachable call's
flag is a pure function of the number of plies descended from the root,
and the selector maximizes the absolute evaluator-positive score over
the root moves. -/
theorem maximizing_flag_by_ply (g : GameRules) :
    (∀ (board : g.Pos) (depth : Nat) (c : CallArgs g),
        c ∈ rootCalls g board depth → c.maximizing = false) ∧
      (∀ root c : CallArgs g, CallReachable g root c →
        c.maximizing =
          (root.maximizing ^^ decide ((root.depth - c.depth) % 2 = 1))) ∧
      (∀ (board : g.Pos) (depth : Nat), NoMoveImpliesOver g →
        get_best_move g board depth =
          firstArgmax
            (fun m => minimax g (depth - 1) (g.apply board m) ⊥ ⊤ false)
            (g.legalMoves board)) := by
  refine ⟨?_, ?_, ?_⟩
  · intro board depth c hc
    simp only [rootCalls, List.mem_map] at hc
    obtain ⟨m, _, rfl⟩ := hc
    rfl
  · intro root c h
    exact (callReachable_invariant g root c h).2.2
  · intro board depth h
    exact get_best_move_eq_firstArgmax g h board depth

/-- C10: under the hypothesis that a position with no legal moves is
reported game-over, the search never returns the sentinels: every result
is an evaluator value at some leaf, so the seeds `-inf` and `inf` of the
running extremes are always overwritten, and the selector records a
candidate move whenever at least one legal move exists. -/
theorem no_sentinel_returned (g : GameRules) (h : NoMoveImpliesOver g) :
    (∀ (depth : Nat) (pos : g.Pos) (alpha beta : Score) (maximizing : Bool),
        ∃ q : g.Pos, minimax g depth pos alpha beta maximizing =
          Score.ofInt (g.evaluate q)) ∧
      (∀ (depth : Nat) (pos : g.Pos) (alpha beta : Score) (maximizing : Bool),
        minimax g depth pos alpha beta maximizing ≠ ⊥ ∧
          minimax g depth pos alpha beta maximizing ≠ ⊤) ∧
      (∀ (board : g.Pos) (depth : Nat), g.legalMoves board ≠ [] →
        get_best_move g board depth ≠ none) := by
  refine ⟨minimax_evaluates g h, ?_, ?_⟩
  · intro depth pos alpha beta maximizing
    obtain ⟨q, hq⟩ := minimax_evaluates g h depth pos alpha beta maximizing
    rw [hq]
    exact ⟨Score.ofInt_ne_bot _, Score.ofInt_ne_top _⟩
  · intro board depth hne
    rw [get_best_move_eq_firstArgmax g h board depth]
    exact firstArgmax_ne_none _ _ hne

theorem minimax_terminal_witness :
    minimax toyGame 0 false ⊥ ⊤ true = Score.ofInt (toyGame.evaluate false) ∧
      directCalls toyGame ⟨false, 0, ⊥, ⊤, true⟩ = [] :=
  minimax_terminal toyGame 0 false ⊥ ⊤ true (Or.inl rfl)

theorem root_tie_break_first_move_witness :
    get_best_move toyGame false 1 =
      firstArgmax
        (fun m => minimax toyGame (1 - 1) (toyGame.apply false m) ⊥ ⊤ false)
        (toyGame.legalMoves false) :=
  root_tie_break_first_move toyGame toy_no_move_implies_over false 1

theorem no_legal_moves_gives_none_witness :
    get_best_move toyGame true 3 = none :=
  no_legal_moves_gives_none toyGame true 3 rfl

theorem alpha_le_beta_at_every_call_witness :
    (⟨false, 1, ⊥, ⊤, false⟩ : CallArgs toyGame).alpha ≤
      (⟨false, 1, ⊥, ⊤, false⟩ : CallArgs toyGame).beta :=
  alpha_le_beta_at_every_call toyGame false 1 false ⟨false, 1, ⊥, ⊤, false⟩
    Relation.ReflTransGen.refl

theorem no_sentinel_returned_witness :
    ∃ q : toyGame.Pos, minimax toyGame 1 false ⊥ ⊤ true =
      Score.ofInt (toyGame.evaluate q) :=
  (no_sentinel_returned toyGame toy_no_move_implies_over).1 1 false ⊥ ⊤ true

/-- Piece types of the adapter. -/
inductive PieceType where
  | pawn
  | knight
  | bishop
  | rook
  | queen
  | king
deriving DecidableEq

/-- A piece: its type and its color, `true` for White (the reference
side; in python-chess `chess.WHITE` is the boolean true). -/
structure Piece where
  pieceType : PieceType
  color : Bool
deriving DecidableEq

/-- The slice of the board state `ChessAIEngine.evaluate` consults:
`piece_at` on the 64 squares (A1 = 0 … H8 = 63, square = 8*rank+file)
and the castling-right queries per side. -/
structure EvalPosition where
  piece_at : Fin 64 → Option Piece
  has_kingside_castling_rights : Bool → Bool
  has_queenside_castling_rights : Bool → Bool

/-- The material values dictionary of the source. -/
def piece_values : PieceType → ℤ
  | .pawn => 100
  | .knight => 320
  | .bishop => 330
  | .rook => 500
  | .queen => 900
  | .king => 20000

/-- The 64-entry pawn piece-square table of the source. -/
def pawn_table : List ℤ :=
  [0,  0,  0,  0,  0,  0,  0,  0,
   50, 50, 50, 50, 50, 50, 50, 50,
   10, 10, 20, 30, 30, 20, 10, 10,
   5,  5, 10, 25, 25, 10,  5,  5,
   0,  0,  0, 20, 20,  0,  0,  0,
   5, -5,-10,  0,  0,-10, -5,  5,
   5, 10, 10,-20,-20, 10, 10,  5,
   0,  0,  0,  0,  0,  0,  0,  0]

/-- The body of the material-and-position loop of `evaluate`: base value,
the pawn-table adjustment for pawns only (mirrored index `63 - square`
for Black), then the color sign. -/
def evaluate_piece_step (board : EvalPosition) (score : ℤ)
    (square : Fin 64) : ℤ :=
  match board.piece_at square with
  | none => score
  | some piece =>
    let value := piece_values piece.pieceType
    let value :=
      if piece.pieceType = PieceType.pawn then
        value + (if piece.color then pawn_table.getD square.val 0
                 else pawn_table.getD (63 - square.val) 0)
      else value
    score + (if piece.color then value else -value)

/-- The four designated center squares d4, d5, e4, e5 of the source. -/
def center_squares : List (Fin 64) := [27, 35, 28, 36]

/-- The body of the center-control loop of `evaluate`: 50 for an occupied
center square, signed by the occupant's color. -/
def evaluate_center_step (board : EvalPosition) (score : ℤ)
    (square : Fin 64) : ℤ :=
  match board.piece_at square with
  | none => score
  | some piece => score + (if piece.color then 50 else -50)

/-- `ChessAIEngine.evaluate`: material and pawn-table sum over all 64
squares, the center-control bonus over the four center squares, then 30
for each of White's two still-available castling rights (only White's,
as in the source). -/
def evaluate (board : EvalPosition) : ℤ :=
  let score := (List.finRange 64).foldl (evaluate_piece_step board) 0
  let score := center_squares.foldl (evaluate_center_step board) score
  let score := if board.has_kingside_castling_rights true then score + 30
               else score
  let score := if board.has_queenside_castling_rights true then score + 30
               else score
  score

/-- Modelled from the spec (section 4.1): the sign adjustment of a side,
add for the reference side and subtract otherwise. -/
def signFactor (color : Bool) : ℤ := if color then 1 else -1

/-- Modelled from the spec: the signed material term of one occupied
square, the pawn positional adjustment (mirrored by `63 - square` for
the opposing side) added before the sign adjustment. -/
def specPieceTerm (board : EvalPosition) (square : Fin 64) : ℤ :=
  match board.piece_at square with
  | none => 0
  | some piece =>
    signFactor piece.color *
      (piece_values piece.pieceType +
        (if piece.pieceType = PieceType.pawn then
          (if piece.color then pawn_table.getD square.val 0
           else pawn_table.getD (63 - square.val) 0)
         else 0))

/-- Modelled from the spec: the center-control bonus of one designated
square, signed by the occupant's side. -/
def specCenterTerm (board : EvalPosition) (square : Fin 64) : ℤ :=
  match board.piece_at square with
  | none => 0
  | some piece => signFactor piece.color * 50

/-- Modelled from the spec: a fixed bonus for each of the reference
side's two castling rights that are still available, never the
opponent's. -/
def specCastlingBonus (board : EvalPosition) : ℤ :=
  (if board.has_kingside_castling_rights true then 30 else 0) +
  (if board.has_queenside_castling_rights true then 30 else 0)

/-- Modelled from the spec: the reference evaluation, the pure sum of
the four steps of section 4.1, independent of iteration order. -/
def specEvaluate (board : EvalPosition) : ℤ :=
  (∑ square : Fin 64, specPieceTerm board square) +
    (center_squares.map (specCenterTerm board)).sum +
    specCastlingBonus board

theorem foldl_add_form {μ : Type} (f : ℤ → μ → ℤ) (t : μ → ℤ)
    (hf : ∀ s x, f s x = s + t x) :
    ∀ (l : List μ) (a : ℤ), l.foldl f a = a + (l.map t).sum := by
  intro l
  induction l with
  | nil => intro a; simp
  | cons x l ihl =>
    intro a
    simp only [List.foldl_cons, List.map_cons, List.sum_cons, hf]
    rw [ihl, add_assoc]

theorem evaluate_piece_step_eq (board : EvalPosition) (score : ℤ)
    (square : Fin 64) :
    evaluate_piece_step board score square =
      score + specPieceTerm board square := by
  unfold evaluate_piece_step specPieceTerm signFactor
  cases board.piece_at square with
  | none => simp
  | some piece =>
    cases hcol : piece.color with
    | true =>
      by_cases hp : piece.pieceType = PieceType.pawn
      · simp [hp]
      · simp [hp]
    | false =>
      by_cases hp : piece.pieceType = PieceType.pawn
      · simp [hp, neg_one_mul]
      · simp [hp, neg_one_mul]

theorem evaluate_center_step_eq (board : EvalPosition) (score : ℤ)
    (square : Fin 64) :
    evaluate_center_step board score square =
      score + specCenterTerm board square := by
  unfold evaluate_center_step specCenterTerm signFactor
  cases board.piece_at square with
  | none => simp
  | some piece =>
    cases hcol : piece.color with
    | true => simp
    | false => simp [neg_one_mul]

/-- C4: the source evaluator computes exactly the reference sum of the
spec's four-step algorithm: signed material values over all occupied
squares, the pawn-table adjustment (mirrored for Black) added before the
sign adjustment, the center-control bonus on the four center squares,
and the castling bonus for the reference side's two rights only. -/
theorem evaluate_eq_specEvaluate (board : EvalPosition) :
    evaluate board = specEvaluate board := by
  simp only [evaluate]
  rw [foldl_add_form (evaluate_piece_step board) (specPieceTerm board)
      (evaluate_piece_step_eq board),
    foldl_add_form (evaluate_center_step board) (specCenterTerm board)
      (evaluate_center_step_eq board)]
  rw [specEvaluate, Fin.sum_univ_def, specCastlingBonus]
  by_cases hk : board.has_kingside_castling_rights true <;>
    by_cases hq : board.has_queenside_castling_rights true <;>
      simp [hk, hq] <;> ring

end Chessz
